import Mathlib

/-!
# Verification of the SimpleCompressionSystem codec (Delta_RLE.py)

Shallow embedding of the byte-stream codec in Delta_RLE.py: delta encoding,
run-length encoding (RLE), and the method dispatch of
`SimpleCompressionSystem.compress` / `SimpleCompressionSystem.decompress`.

Byte sequences are modelled as `List Nat`; inputs that come from Python
`bytes` objects carry the hypothesis that every element is below 256 where a
statement needs it.  Fallible operations (a raised `ValueError`, or the
`IndexError` from an out-of-range read) are modelled with `Except CodecError`.
-/

/-- Errors the Python code can raise on the modelled paths:
`invalidMethod` models the raised `ValueError("Invalid method. ...")`;
`indexOutOfRange` models the `IndexError` Python raises when
`decompress` reads `data[i + 1]` past the end of an odd-length input. -/
inductive CodecError where
  | invalidMethod
  | indexOutOfRange
deriving DecidableEq, Repr

/-- Python `(a - b) & 0xFF` on nonnegative integers `a`, `b`: the result of
the subtraction reduced modulo 256 into `[0, 255]` (Python `&` on a negative
int uses two-complement semantics, so `x & 0xFF == x % 256` with the
nonnegative Python `%`, which is `Int.emod` here). -/
def pySub256 (a b : Nat) : Nat := (((a : Int) - (b : Int)) % 256).toNat

/-- Tail of `_apply_delta_encoding`: `prev` is `data[i - 1]`, and each element
of the list is replaced by `(data[i] - data[i-1]) & 0xFF`. -/
def deltaEncodeAux (prev : Nat) : List Nat → List Nat
  | [] => []
  | x :: xs => pySub256 x prev :: deltaEncodeAux x xs

/-- `SimpleCompressionSystem._apply_delta_encoding`:
`[(data[i] - data[i - 1]) & 0xFF if i > 0 else data[i] for i in range(len(data))]`.
The first byte passes through unchanged. -/
def deltaEncode : List Nat → List Nat
  | [] => []
  | x :: xs => x :: deltaEncodeAux x xs

/-- Tail of the delta-decoding loop
`decompressed[i] = (decompressed[i] + decompressed[i - 1]) & 0xFF`:
`prev` is the already-reconstructed previous output byte. -/
def deltaDecodeAux (prev : Nat) : List Nat → List Nat
  | [] => []
  | x :: xs => (x + prev) % 256 :: deltaDecodeAux ((x + prev) % 256) xs

/-- The Reverse-Delta-Encoding loop of `decompress` (methods 01 and 03):
`for i in range(1, len(decompressed)): decompressed[i] = (decompressed[i] + decompressed[i - 1]) & 0xFF`,
an in-place cumulative sum with 8-bit wraparound; element 0 is untouched. -/
def deltaDecode : List Nat → List Nat
  | [] => []
  | x :: xs => x :: deltaDecodeAux x xs

/-- The inner while-loop of `_apply_rle`: starting from `run_length = 1` at
byte `b`, count how many further elements of the list equal `b`, stopping when
the list ends or the cap (254 further repeats, keeping `run_length < 255`
true before each increment) is reached. -/
def countRun (b : Nat) : Nat → List Nat → Nat
  | 0, _ => 0
  | _ + 1, [] => 0
  | cap + 1, x :: xs => if x = b then countRun b cap xs + 1 else 0

/-- Fuel-indexed body of the outer `while i < len(data)` loop of `_apply_rle`.
Each iteration emits the pair `[data[i], run_length]` and advances
`i += run_length`; since every iteration consumes at least one element,
`data.length` units of fuel always suffice. -/
def rleEncodeFuel : Nat → List Nat → List Nat
  | 0, _ => []
  | _ + 1, [] => []
  | fuel + 1, b :: rest =>
      let k := countRun b 254 rest
      b :: (k + 1) :: rleEncodeFuel fuel (rest.drop k)

/-- `SimpleCompressionSystem._apply_rle`: scan maximal runs of equal bytes
(capped at 255), emitting `[value, run_length]` pairs. -/
def rleEncode (data : List Nat) : List Nat := rleEncodeFuel data.length data

/-- The Reverse-RLE loop of `decompress` (methods 01 and 02):
`while i < len(data): byte = data[i]; run_length = data[i + 1]; decompressed.extend([byte] * run_length); i += 2`.
When exactly one byte remains, the read `data[i + 1]` is out of range and
Python raises `IndexError`, discarding the partial output. -/
def rleDecode : List Nat → Except CodecError (List Nat)
  | [] => Except.ok []
  | [_] => Except.error CodecError.indexOutOfRange
  | b :: n :: rest => (rleDecode rest).map (fun t => List.replicate n b ++ t)

/-- `SimpleCompressionSystem.compress(data, method)`: dispatch on the method
string; method 01 is delta then RLE, 02 RLE only, 03 delta only, anything
else raises `ValueError`. -/
def compress (data : List Nat) (method : String) : Except CodecError (List Nat) :=
  if method = "01" then Except.ok (rleEncode (deltaEncode data))
  else if method = "02" then Except.ok (rleEncode data)
  else if method = "03" then Except.ok (deltaEncode data)
  else Except.error CodecError.invalidMethod

/-- `SimpleCompressionSystem.decompress(data, method)`: method 01 reverses RLE
then delta, 02 reverses RLE, 03 reverses delta, anything else raises
`ValueError`. -/
def decompress (data : List Nat) (method : String) : Except CodecError (List Nat) :=
  if method = "01" then (rleDecode data).map deltaDecode
  else if method = "02" then rleDecode data
  else if method = "03" then Except.ok (deltaDecode data)
  else Except.error CodecError.invalidMethod

/-- The class state: `__init__` stores the single instance field
`self.last_byte = 0`.  No method of the class ever reads or writes it. -/
structure SimpleCompressionSystem where
  last_byte : Nat
deriving DecidableEq, Repr

/-- `SimpleCompressionSystem.__init__`: sets `last_byte` to 0. -/
def SimpleCompressionSystem.init : SimpleCompressionSystem := ⟨0⟩

/-- The `compress` method as a state transformer on the instance.  The Python
body of `compress` contains no read of and no assignment to `self.last_byte`
(its only uses of `self` are calls to the helper methods, whose bodies also
never touch the instance state), so the state passes through unchanged and
the result is computed from `(data, method)` alone. -/
def SimpleCompressionSystem.compressM (self : SimpleCompressionSystem)
    (data : List Nat) (method : String) :
    Except CodecError (List Nat) × SimpleCompressionSystem :=
  (compress data method, self)

/-- The `decompress` method as a state transformer on the instance; like
`compress`, its Python body never reads or assigns `self.last_byte`. -/
def SimpleCompressionSystem.decompressM (self : SimpleCompressionSystem)
    (data : List Nat) (method : String) :
    Except CodecError (List Nat) × SimpleCompressionSystem :=
  (decompress data method, self)

/-- Written from the words of the claim, for comparison with `rleDecode`: the
in-order concatenation, for each consecutive pair `[value, runLength]`, of
`runLength` copies of `value` (a trailing lone byte contributes nothing; on
even-length inputs that case never arises). -/
def rleDecodeSpec : List Nat → List Nat
  | v :: n :: rest => List.replicate n v ++ rleDecodeSpec rest
  | _ => []

/-- Sum of the bytes at odd indices (indices 1, 3, 5, ...) of a list. -/
def oddIndexSum : List Nat → Nat
  | _ :: n :: rest => n + oddIndexSum rest
  | _ => 0

/-- The list splits into consecutive `[value, runLength]` pairs whose
run-length byte lies in `[1, 255]`. -/
def runPairsOk : List Nat → Prop
  | [] => True
  | [_] => False
  | _ :: n :: rest => (1 ≤ n ∧ n ≤ 255) ∧ runPairsOk rest

/-! ## Helper lemmas about `countRun` and `rleEncode` -/

theorem countRun_le_cap (b : Nat) : ∀ (cap : Nat) (l : List Nat), countRun b cap l ≤ cap := by
  intro cap
  induction cap with
  | zero => intro l; simp [countRun]
  | succ c ih =>
    intro l
    cases l with
    | nil => simp [countRun]
    | cons x xs =>
      simp only [countRun]
      split
      · exact Nat.succ_le_succ (ih xs)
      · exact Nat.zero_le _

theorem countRun_le_length (b : Nat) : ∀ (cap : Nat) (l : List Nat), countRun b cap l ≤ l.length := by
  intro cap
  induction cap with
  | zero => intro l; simp [countRun]
  | succ c ih =>
    intro l
    cases l with
    | nil => simp [countRun]
    | cons x xs =>
      simp only [countRun, List.length_cons]
      split
      · exact Nat.succ_le_succ (ih xs)
      · exact Nat.zero_le _

theorem take_countRun (b : Nat) :
    ∀ (cap : Nat) (l : List Nat), l.take (countRun b cap l) = List.replicate (countRun b cap l) b := by
  intro cap
  induction cap with
  | zero => intro l; simp [countRun]
  | succ c ih =>
    intro l
    cases l with
    | nil => simp [countRun]
    | cons x xs =>
      simp only [countRun]
      split
      · rename_i hx
        subst hx
        simp only [List.take_succ_cons, List.replicate_succ, List.cons.injEq, true_and]
        exact ih xs
      · simp

theorem rleEncodeFuel_eq : ∀ (f : Nat) (l : List Nat), l.length ≤ f →
    rleEncodeFuel f l = rleEncode l := by
  intro f
  induction f using Nat.strong_induction_on with
  | _ f ih =>
    intro l hl
    cases l with
    | nil => cases f <;> rfl
    | cons b rest =>
      cases f with
      | zero => simp at hl
      | succ f =>
        have hlen : rest.length ≤ f := by simpa using hl
        have hk := countRun_le_length b 254 rest
        simp only [rleEncode, List.length_cons, rleEncodeFuel]
        rw [ih f (Nat.lt_succ_self f) _ (by simp only [List.length_drop]; omega),
          ih rest.length (Nat.lt_succ_of_le hlen) _ (by simp only [List.length_drop]; omega)]

theorem rleEncode_cons (b : Nat) (rest : List Nat) :
    rleEncode (b :: rest) =
      b :: (countRun b 254 rest + 1) :: rleEncode (rest.drop (countRun b 254 rest)) := by
  conv_lhs => rw [rleEncode]
  simp only [List.length_cons, rleEncodeFuel]
  rw [rleEncodeFuel_eq rest.length _ (by simp only [List.length_drop]; omega)]

theorem rleDecode_rleEncode : ∀ (x : List Nat), rleDecode (rleEncode x) = Except.ok x := by
  have key : ∀ (n : Nat) (x : List Nat), x.length ≤ n → rleDecode (rleEncode x) = Except.ok x := by
    intro n
    induction n with
    | zero =>
      intro x hx
      cases x with
      | nil => rfl
      | cons b rest => simp at hx
    | succ n ih =>
      intro x hx
      cases x with
      | nil => rfl
      | cons b rest =>
        rw [rleEncode_cons]
        have hkl : countRun b 254 rest ≤ rest.length := countRun_le_length b 254 rest
        have hstep : rleDecode (b :: (countRun b 254 rest + 1) ::
            rleEncode (rest.drop (countRun b 254 rest))) =
            (rleDecode (rleEncode (rest.drop (countRun b 254 rest)))).map
              (fun t => List.replicate (countRun b 254 rest + 1) b ++ t) := rfl
        rw [hstep, ih _ (by simp only [List.length_drop]; simp at hx; omega)]
        simp only [Except.map, List.replicate_succ, List.cons_append, Except.ok.injEq,
          List.cons.injEq, true_and]
        rw [← take_countRun b 254 rest, List.take_append_drop]
  intro x
  exact key x.length x (Nat.le_refl _)

theorem runPairsOk_rleEncode : ∀ (x : List Nat), runPairsOk (rleEncode x) := by
  have key : ∀ (n : Nat) (x : List Nat), x.length ≤ n → runPairsOk (rleEncode x) := by
    intro n
    induction n with
    | zero =>
      intro x hx
      cases x with
      | nil => trivial
      | cons b rest => simp at hx
    | succ n ih =>
      intro x hx
      cases x with
      | nil => trivial
      | cons b rest =>
        rw [rleEncode_cons]
        exact ⟨⟨Nat.succ_le_succ (Nat.zero_le _), Nat.succ_le_succ (countRun_le_cap b 254 rest)⟩,
          ih _ (by simp only [List.length_drop]; simp at hx; omega)⟩
  intro x
  exact key x.length x (Nat.le_refl _)

theorem rleEncode_length_le : ∀ (x : List Nat), (rleEncode x).length ≤ 2 * x.length := by
  have key : ∀ (n : Nat) (x : List Nat), x.length ≤ n → (rleEncode x).length ≤ 2 * x.length := by
    intro n
    induction n with
    | zero =>
      intro x hx
      cases x with
      | nil => simp [rleEncode, rleEncodeFuel]
      | cons b rest => simp at hx
    | succ n ih =>
      intro x hx
      cases x with
      | nil => simp [rleEncode, rleEncodeFuel]
      | cons b rest =>
        rw [rleEncode_cons]
        simp only [List.length_cons]
        have h1 := ih (rest.drop (countRun b 254 rest))
          (by simp only [List.length_drop]; simp at hx; omega)
        simp only [List.length_drop] at h1
        omega
  intro x
  exact key x.length x (Nat.le_refl _)

/-! ## Helper lemmas about the delta transform -/

theorem pySub256_cast (u v : Nat) : ((pySub256 u v : Nat) : Int) = ((u : Int) - v) % 256 := by
  unfold pySub256
  exact Int.toNat_of_nonneg (Int.emod_nonneg _ (by norm_num))

theorem pySub256_add (x p : Nat) (hx : x < 256) : (pySub256 x p + p) % 256 = x := by
  have h2 := pySub256_cast x p
  omega

theorem deltaDecodeAux_deltaEncodeAux : ∀ (l : List Nat) (p : Nat), (∀ b ∈ l, b < 256) →
    deltaDecodeAux p (deltaEncodeAux p l) = l := by
  intro l
  induction l with
  | nil => intro p _; rfl
  | cons x xs ih =>
    intro p h
    have hx : x < 256 := h x (by simp)
    simp only [deltaEncodeAux, deltaDecodeAux, pySub256_add x p hx]
    exact congrArg (x :: ·) (ih x (fun b hb => h b (by simp [hb])))

theorem deltaDecode_deltaEncode (x : List Nat) (hx : ∀ b ∈ x, b < 256) :
    deltaDecode (deltaEncode x) = x := by
  cases x with
  | nil => rfl
  | cons a l =>
    simp only [deltaEncode, deltaDecode]
    rw [deltaDecodeAux_deltaEncodeAux l a (fun b hb => hx b (by simp [hb]))]

theorem deltaEncodeAux_length : ∀ (l : List Nat) (p : Nat),
    (deltaEncodeAux p l).length = l.length := by
  intro l
  induction l with
  | nil => intro p; rfl
  | cons x xs ih => intro p; simp [deltaEncodeAux, ih]

theorem deltaEncode_length (x : List Nat) : (deltaEncode x).length = x.length := by
  cases x with
  | nil => rfl
  | cons a l => simp [deltaEncode, deltaEncodeAux_length]

theorem deltaEncodeAux_getD : ∀ (l : List Nat) (p : Nat) (i : Nat), i < l.length →
    (deltaEncodeAux p l).getD i 0 =
      pySub256 (l.getD i 0) (if i = 0 then p else l.getD (i - 1) 0) := by
  intro l
  induction l with
  | nil => intro p i h; simp at h
  | cons x xs ih =>
    intro p i h
    cases i with
    | zero => simp [deltaEncodeAux]
    | succ j =>
      simp only [deltaEncodeAux, List.getD_cons_succ]
      rw [ih x j (by simpa using h)]
      cases j with
      | zero => simp
      | succ j2 => simp [List.getD_cons_succ]

/-! ## Helper lemmas about runs of identical bytes -/

theorem countRun_replicate (b : Nat) :
    ∀ (cap n : Nat), countRun b cap (List.replicate n b) = min cap n := by
  intro cap
  induction cap with
  | zero => intro n; simp [countRun]
  | succ c ih =>
    intro n
    cases n with
    | zero => simp [countRun, List.replicate]
    | succ m =>
      rw [List.replicate_succ]
      simp only [countRun, if_pos rfl, ite_true, ih m]
      omega

theorem rleEncode_replicate_le255 (b n : Nat) (h1 : 1 ≤ n) (h2 : n ≤ 255) :
    rleEncode (List.replicate n b) = [b, n] := by
  cases n with
  | zero => omega
  | succ m =>
    rw [List.replicate_succ, rleEncode_cons, countRun_replicate]
    have hm : min 254 m = m := by omega
    rw [hm, show (List.replicate m b).drop m = [] from by simp [List.drop_replicate]]
    rfl

theorem rleEncode_replicate_300 (b : Nat) :
    rleEncode (List.replicate 300 b) = [b, 255, b, 45] := by
  rw [show List.replicate 300 b = b :: List.replicate 299 b from rfl,
    rleEncode_cons, countRun_replicate]
  rw [show min 254 299 = 254 from by norm_num, List.drop_replicate,
    rleEncode_replicate_le255 b (299 - 254) (by norm_num) (by norm_num)]

theorem rleDecode_record_300 (b : Nat) :
    rleDecode [b, 255, b, 45] = Except.ok (List.replicate 300 b) := by
  show Except.ok (List.replicate 255 b ++ (List.replicate 45 b ++ [])) = _
  rw [List.append_nil, ← List.replicate_add]

/-! ## Helper lemmas about RLE decoding of arbitrary even-length streams -/

theorem rleDecode_even_eq : ∀ (d : List Nat), d.length % 2 = 0 →
    rleDecode d = Except.ok (rleDecodeSpec d)
  | [], _ => rfl
  | [x], h => by simp at h
  | a :: b :: rest, h => by
    have hr : rest.length % 2 = 0 := by
      simp only [List.length_cons] at h
      omega
    show (rleDecode rest).map _ = _
    rw [rleDecode_even_eq rest hr]
    rfl

theorem rleDecodeSpec_length : ∀ (d : List Nat), (rleDecodeSpec d).length = oddIndexSum d
  | [] => rfl
  | [_] => rfl
  | _ :: _ :: rest => by
    simp only [rleDecodeSpec, oddIndexSum, List.length_append, List.length_replicate,
      rleDecodeSpec_length rest]

/-! ## Claim theorems -/

/-- C1: for every method M in {DeltaRLE (01), RLEOnly (02), DeltaOnly (03)}
and every byte sequence x (every element below 256, covering empty,
single-byte, and long-run inputs), decompressing the compressed output with
the same method returns x. -/
theorem C1_round_trip (m : String) (x : List Nat)
    (hm : m = "01" ∨ m = "02" ∨ m = "03") (hx : ∀ b ∈ x, b < 256) :
    (compress x m).bind (fun c => decompress c m) = Except.ok x := by
  rcases hm with h | h | h <;> subst h
  · show (rleDecode (rleEncode (deltaEncode x))).map deltaDecode = Except.ok x
    rw [rleDecode_rleEncode]
    show Except.ok (deltaDecode (deltaEncode x)) = Except.ok x
    rw [deltaDecode_deltaEncode x hx]
  · show rleDecode (rleEncode x) = Except.ok x
    exact rleDecode_rleEncode x
  · show Except.ok (deltaDecode (deltaEncode x)) = Except.ok x
    rw [deltaDecode_deltaEncode x hx]

theorem C1_round_trip_witness :
    (("01" : String) = "01" ∨ ("01" : String) = "02" ∨ ("01" : String) = "03") ∧
    (∀ b ∈ ([10, 10, 10, 12, 12] : List Nat), b < 256) ∧
    (compress [10, 10, 10, 12, 12] "01").bind (fun c => decompress c "01") =
      Except.ok [10, 10, 10, 12, 12] :=
  ⟨Or.inl rfl, by decide,
    C1_round_trip "01" [10, 10, 10, 12, 12] (Or.inl rfl) (by decide)⟩

/-- C2: RLE decoding of the odd-length input [0x05] does not fail with a
dedicated MalformedRLEStream error: the code reads `data[i + 1]` past the end
of the input and raises a plain `IndexError` (the out-of-range fault), on both
the RLEOnly path and the RLE-reversal step of DeltaRLE. -/
theorem C2_odd_length_index_fault :
    decompress [5] "02" = Except.error CodecError.indexOutOfRange ∧
    decompress [5] "01" = Except.error CodecError.indexOutOfRange ∧
    rleDecode [5] = Except.error CodecError.indexOutOfRange :=
  ⟨rfl, rfl, rfl⟩

/-- C3: for every byte sequence and every method value other than 01, 02 and
03, both compress and decompress fail with the InvalidMethod error and produce
no output. -/
theorem C3_invalid_method (data : List Nat) (m : String)
    (h1 : m ≠ "01") (h2 : m ≠ "02") (h3 : m ≠ "03") :
    compress data m = Except.error CodecError.invalidMethod ∧
    decompress data m = Except.error CodecError.invalidMethod := by
  constructor <;> simp [compress, decompress, h1, h2, h3]

theorem C3_invalid_method_witness :
    (("99" : String) ≠ "01" ∧ ("99" : String) ≠ "02" ∧ ("99" : String) ≠ "03") ∧
    compress [1, 2, 3] "99" = Except.error CodecError.invalidMethod ∧
    decompress [1, 2, 3] "99" = Except.error CodecError.invalidMethod :=
  ⟨⟨by decide, by decide, by decide⟩,
    C3_invalid_method [1, 2, 3] "99" (by decide) (by decide) (by decide)⟩

/-- C4: deltaEncode is total, preserves length, passes byte 0 through
unchanged, and sets byte i (for i ≥ 1) to (Input[i] − Input[i−1]) mod 256,
the nonnegative remainder of the integer subtraction. -/
theorem C4_deltaEncode_spec (x : List Nat) :
    (deltaEncode x).length = x.length ∧
    (0 < x.length → (deltaEncode x).getD 0 0 = x.getD 0 0) ∧
    (∀ i, 1 ≤ i → i < x.length →
      ((deltaEncode x).getD i 0 : Int) = ((x.getD i 0 : Int) - (x.getD (i - 1) 0 : Int)) % 256) := by
  refine ⟨deltaEncode_length x, ?_, ?_⟩
  · intro h
    cases x with
    | nil => simp at h
    | cons a l => rfl
  · intro i h1 h2
    cases x with
    | nil => simp at h2
    | cons a l =>
      cases i with
      | zero => omega
      | succ j =>
        have hj : j < l.length := by simpa using h2
        show ((deltaEncodeAux a l).getD j 0 : Int) = _
        rw [deltaEncodeAux_getD l a j hj, pySub256_cast]
        cases j with
        | zero => simp
        | succ j2 => simp [List.getD_cons_succ]

theorem C4_deltaEncode_spec_witness :
    (0 < ([3, 1, 200] : List Nat).length) ∧ (1 ≤ 2 ∧ 2 < ([3, 1, 200] : List Nat).length) ∧
    (deltaEncode [3, 1, 200]).length = ([3, 1, 200] : List Nat).length ∧
    (deltaEncode [3, 1, 200]).getD 0 0 = ([3, 1, 200] : List Nat).getD 0 0 ∧
    ((deltaEncode [3, 1, 200]).getD 2 0 : Int) =
      ((([3, 1, 200] : List Nat).getD 2 0 : Int) - (([3, 1, 200] : List Nat).getD (2 - 1) 0 : Int)) % 256 :=
  ⟨by decide, ⟨by decide, by decide⟩,
    (C4_deltaEncode_spec [3, 1, 200]).1,
    (C4_deltaEncode_spec [3, 1, 200]).2.1 (by decide),
    (C4_deltaEncode_spec [3, 1, 200]).2.2 2 (by decide) (by decide)⟩

/-- C5: every run record emitted by rleEncode has its run-length byte in
[1, 255]; a run of 300 identical bytes b is split into exactly the two records
[b, 255] and [b, 45], and decoding that output reconstructs the 300-byte run. -/
theorem C5_run_splitting (x : List Nat) (b : Nat) :
    runPairsOk (rleEncode x) ∧
    rleEncode (List.replicate 300 b) = [b, 255, b, 45] ∧
    rleDecode [b, 255, b, 45] = Except.ok (List.replicate 300 b) :=
  ⟨runPairsOk_rleEncode x, rleEncode_replicate_300 b, rleDecode_record_300 b⟩

/-- C6: rleEncode of [1, 2, 3, 4] (no repeats) is exactly
[1, 1, 2, 1, 3, 1, 4, 1], and in general the RLE output is at most twice as
long as the input. -/
theorem C6_rle_worst_case :
    rleEncode [1, 2, 3, 4] = [1, 1, 2, 1, 3, 1, 4, 1] ∧
    ∀ (x : List Nat), (rleEncode x).length ≤ 2 * x.length :=
  ⟨by decide, rleEncode_length_le⟩

/-- C7: compressing [10, 10, 10, 12, 12] with method 01 first delta-encodes
it to [10, 0, 0, 2, 0], then RLE-encodes that to [10, 1, 0, 2, 2, 1, 0, 1];
decompressing that exact sequence with method 01 returns the original. -/
theorem C7_chained_example :
    deltaEncode [10, 10, 10, 12, 12] = [10, 0, 0, 2, 0] ∧
    rleEncode [10, 0, 0, 2, 0] = [10, 1, 0, 2, 2, 1, 0, 1] ∧
    compress [10, 10, 10, 12, 12] "01" = Except.ok [10, 1, 0, 2, 2, 1, 0, 1] ∧
    decompress [10, 1, 0, 2, 2, 1, 0, 1] "01" = Except.ok [10, 10, 10, 12, 12] :=
  ⟨by decide, by decide, rfl, rfl⟩

/-- C8: for each of the three methods, compressing the empty byte sequence
returns the empty sequence, and so does decompressing it. -/
theorem C8_empty_input :
    compress [] "01" = Except.ok [] ∧ compress [] "02" = Except.ok [] ∧
    compress [] "03" = Except.ok [] ∧ decompress [] "01" = Except.ok [] ∧
    decompress [] "02" = Except.ok [] ∧ decompress [] "03" = Except.ok [] :=
  ⟨rfl, rfl, rfl, rfl, rfl, rfl⟩

/-- C9: compress and decompress are pure functions of (data, method): on any
two instances with any values of last_byte, the same arguments give identical
results, and neither call modifies the instance state. -/
theorem C9_pure_stateless (s1 s2 : SimpleCompressionSystem) (data : List Nat) (m : String) :
    (s1.compressM data m).1 = (s2.compressM data m).1 ∧
    (s1.compressM data m).2 = s1 ∧
    (s1.decompressM data m).1 = (s2.decompressM data m).1 ∧
    (s1.decompressM data m).2 = s1 :=
  ⟨rfl, rfl, rfl, rfl⟩

/-- C10: for every even-length input d — including pairs whose run-length
byte is 0, which the encoder never produces — RLE decoding succeeds and
returns the in-order concatenation of runLength copies of each pair value,
and the output length is the sum of the bytes at odd indices of d. -/
theorem C10_rleDecode_even (d : List Nat) (h : d.length % 2 = 0) :
    rleDecode d = Except.ok (rleDecodeSpec d) ∧
    (rleDecodeSpec d).length = oddIndexSum d :=
  ⟨rleDecode_even_eq d h, rleDecodeSpec_length d⟩

theorem C10_rleDecode_even_witness :
    ([7, 0, 3, 2] : List Nat).length % 2 = 0 ∧
    (rleDecode [7, 0, 3, 2] = Except.ok (rleDecodeSpec [7, 0, 3, 2]) ∧
      (rleDecodeSpec [7, 0, 3, 2]).length = oddIndexSum [7, 0, 3, 2]) :=
  ⟨by decide, C10_rleDecode_even [7, 0, 3, 2] (by decide)⟩
